import Mathlib

/-!
Shallow embedding of the Rust repository sniffing-rust-code (three teaching
modules: dst_deep_dive.rs, error_handling_patterns.rs, iterator_patterns.rs)
together with theorems settling the frozen claims about it.

Machine strings are modelled as Lean `String`, Rust `i32` values as `Int`
with explicit range checks where overflow matters, `Result` as `Except`,
and the `Box<dyn Error>` errors that this code builds from string literals
as `String`.
-/

set_option maxHeartbeats 1000000

namespace Sniffing

/-! ### dst_deep_dive.rs, mod dyn_processor -/

/-- A registered `Box<dyn DataProcessor>` trait object: its vtable consists of
`name`, `process` and `priority` (a `u8`, modelled as `Nat`; the program only
uses 5, 6 and 8). -/
structure DataProcessor where
  name : String
  priority : Nat
  process : String → Except String String

/-- Rust `str::lines`: split on newline characters, where each line terminated
by a newline has a final carriage return stripped (handling of a CR-LF line
ending); an unterminated final fragment is kept verbatim, and a terminating
final newline produces no extra empty line. -/
def rustLinesGo : List String → List String
  | [] => []
  | [last] => if last = "" then [] else [last]
  | l :: rest => (if l.endsWith "\r" then l.dropRight 1 else l) :: rustLinesGo rest

/-- Rust `str::lines` on a whole string: split on the newline character and
post-process the fragments with `rustLinesGo`. -/
def rustLines (s : String) : List String :=
  rustLinesGo (s.splitOn "\n")

/-- `JsonProcessor` from dst_deep_dive.rs: priority 8; `process` succeeds
exactly when the data starts with a left brace and ends with a right brace. -/
def jsonProcessor : DataProcessor where
  name := "JSON处理器"
  priority := 8
  process := fun data =>
    if data.startsWith "\x7b" && data.endsWith "\x7d" then
      Except.ok ("已处理JSON数据: " ++ data)
    else
      Except.error "不是有效的JSON格式"

/-- `CsvProcessor` from dst_deep_dive.rs: priority 6; `process` succeeds
exactly when the data has strictly more than one line. -/
def csvProcessor : DataProcessor where
  name := "CSV处理器"
  priority := 6
  process := fun data =>
    let lines := rustLines data
    if lines.length > 1 then
      Except.ok ("已处理" ++ toString lines.length ++ "行CSV数据")
    else
      Except.error "CSV数据格式不正确"

/-- `PluginManager` from dst_deep_dive.rs: a vector of boxed processors. -/
structure PluginManager where
  processors : List DataProcessor

/-- `PluginManager::new`: the empty vector of processors. -/
def PluginManager.new : PluginManager := ⟨[]⟩

/-- The order used by `register`'s sort call
`sort_by(|a, b| b.priority().cmp(&a.priority()))`: `a` precedes (or ties) `b`
iff `b.priority() <= a.priority()`. -/
def registerOrder (a b : DataProcessor) : Prop := b.priority ≤ a.priority

instance : DecidableRel registerOrder :=
  fun a b => inferInstanceAs (Decidable (b.priority ≤ a.priority))

instance : IsTotal DataProcessor registerOrder :=
  ⟨fun a b => (Nat.le_total b.priority a.priority)⟩

instance : IsTrans DataProcessor registerOrder :=
  ⟨fun _ _ _ hab hbc => Nat.le_trans hbc hab⟩

/-- `PluginManager::register`: push the new processor, then stably sort the
vector by descending priority.  Rust's `sort_by` is a stable sort and a stable
sort for a total preorder has a unique result, so the stable
`List.insertionSort` computes the same vector. -/
def PluginManager.register (m : PluginManager) (p : DataProcessor) : PluginManager :=
  ⟨List.insertionSort registerOrder (m.processors ++ [p])⟩

/-- The loop body of `PluginManager::process_data`: try each processor in
vector order, return the first `Ok`, and fall through to the fixed error when
every processor fails. -/
def processList : List DataProcessor → String → Except String String
  | [], _ => Except.error "所有处理器都无法处理该数据"
  | p :: ps, data =>
    match p.process data with
    | Except.ok r => Except.ok r
    | Except.error _ => processList ps data

/-- `PluginManager::process_data`. -/
def PluginManager.process_data (m : PluginManager) (data : String) : Except String String :=
  processList m.processors data

/-- A whole sequence of `register` calls starting from `PluginManager::new`. -/
def registerAll (ps : List DataProcessor) : PluginManager :=
  ps.foldl PluginManager.register PluginManager.new

/-! ### error_handling_patterns.rs -/

/-- The error kinds of `std::num::ParseIntError` reachable from
`str::parse::<i32>`. -/
inductive IntErrorKind where
  | empty
  | invalidDigit
  | posOverflow
  | negOverflow
deriving DecidableEq, Repr

/-- Lower bound of `i32`. -/
def i32Min : Int := -2147483648

/-- Upper bound of `i32`. -/
def i32Max : Int := 2147483647

/-- Digit-accumulation loop of Rust's `i32::from_str` (`from_str_radix` with
radix 10): for each character take its decimal digit value (else the error is
`InvalidDigit`), multiply the accumulator by 10 and add (for negative numbers,
subtract) the digit, failing with `PosOverflow`/`NegOverflow` as soon as the
accumulator leaves the `i32` range. -/
def parseDigitsLoop (neg : Bool) : List Char → Int → Except IntErrorKind Int
  | [], acc => Except.ok acc
  | c :: cs, acc =>
    if c.isDigit then
      let d : Int := (c.toNat - '0'.toNat : Nat)
      if neg then
        let acc' := acc * 10 - d
        if acc' < i32Min then Except.error IntErrorKind.negOverflow
        else parseDigitsLoop neg cs acc'
      else
        let acc' := acc * 10 + d
        if i32Max < acc' then Except.error IntErrorKind.posOverflow
        else parseDigitsLoop neg cs acc'
    else Except.error IntErrorKind.invalidDigit

/-- Rust `str::parse::<i32>`: empty input is the `Empty` error kind; a leading
sign consisting of the whole string is `InvalidDigit`; otherwise the signed
digit loop runs on the remaining characters. -/
def parseI32 (s : String) : Except IntErrorKind Int :=
  match s.data with
  | [] => Except.error IntErrorKind.empty
  | c :: rest =>
    if c = '+' then
      if rest = [] then Except.error IntErrorKind.invalidDigit
      else parseDigitsLoop false rest 0
    else if c = '-' then
      if rest = [] then Except.error IntErrorKind.invalidDigit
      else parseDigitsLoop true rest 0
    else parseDigitsLoop false (c :: rest) 0

/-- The concrete error enum `ParseError` of error_handling_patterns.rs. -/
inductive ParseError where
  | Empty
  | InvalidFormat (e : IntErrorKind)
deriving DecidableEq, Repr

/-- `parse_number_good` from error_handling_patterns.rs: empty input is
rejected with `ParseError::Empty`, otherwise the string is parsed as an `i32`
with the parse error wrapped in `ParseError::InvalidFormat`. -/
def parse_number_good (s : String) : Except ParseError Int :=
  if s.isEmpty then Except.error ParseError.Empty
  else (parseI32 s).mapError ParseError.InvalidFormat

/-! ### iterator_patterns.rs, mod impl_my_iter_ext -/

/-- The custom slice iterator `Iter<'a, T>`: a borrowed slice plus a cursor. -/
structure Iter (α : Type) where
  slice : List α
  idx : Nat

/-- `Iter::next`: when the cursor has reached the length the iterator is
exhausted; otherwise return `slice.get(idx)` and advance the cursor. -/
def Iter.next (it : Iter α) : Option α × Iter α :=
  if it.idx = it.slice.length then (none, it)
  else (it.slice.get? it.idx, ⟨it.slice, it.idx + 1⟩)

/-- `Iter::size_hint`: `(len - idx, Some(len - idx))` (here with truncated
`Nat` subtraction standing for the `usize` subtraction). -/
def Iter.size_hint (it : Iter α) : Nat × Option Nat :=
  (it.slice.length - it.idx, some (it.slice.length - it.idx))

/-- `From<&[T]> for Iter`: start at cursor 0. -/
def Iter.fromSlice (s : List α) : Iter α := ⟨s, 0⟩

/-- The `Iterator` trait for the state-machine embedding: `next` consumes the
iterator and returns the yielded element plus the successor state.  `size` is
a termination measure (strictly decreasing across any `next` that yields an
element), which is what makes the `Filter::next` loop and `collect` loops of
the Rust code terminating functions. -/
class Step (I : Type) (β : outParam Type) where
  next : I → Option β × I
  size : I → Nat
  size_dec : ∀ i x i', next i = (some x, i') → size i' < size i

instance instStepIter : Step (Iter α) α where
  next := Iter.next
  size it := it.slice.length - it.idx
  size_dec := by
    intro it x it' h
    unfold Iter.next at h
    split at h
    · exact absurd (congrArg Prod.fst h) (by simp)
    · rename_i hne
      have hx : it.slice.get? it.idx = some x := congrArg Prod.fst h
      have hlt : it.idx < it.slice.length := by
        by_contra hge
        rw [List.get?_eq_none.mpr (Nat.le_of_not_lt hge)] at hx
        exact absurd hx (by simp)
      have h2 : it' = ⟨it.slice, it.idx + 1⟩ := (congrArg Prod.snd h).symm
      subst h2
      simp only
      omega

/-- The `Map` adapter struct of `my_map`. -/
structure Map (I : Type) (β γ : Type) where
  iter : I
  f : β → γ

/-- `Map::next`: apply the stored closure to the inner iterator's element. -/
def Map.next [Step I β] (m : Map I β γ) : Option γ × Map I β γ :=
  match Step.next m.iter with
  | (some item, it') => (some (m.f item), ⟨it', m.f⟩)
  | (none, it') => (none, ⟨it', m.f⟩)

instance instStepMap [Step I β] : Step (Map I β γ) γ where
  next := Map.next
  size m := Step.size m.iter
  size_dec := by
    intro m x m' h
    unfold Map.next at h
    split at h
    · rename_i item it' heq
      have h2 : m' = ⟨it', m.f⟩ := (congrArg Prod.snd h).symm
      subst h2
      exact Step.size_dec m.iter item it' heq
    · exact absurd (congrArg Prod.fst h) (by simp)

/-- The `Filter` adapter struct of `my_filter`. -/
structure Filter (I : Type) (β : Type) where
  iter : I
  f : β → Bool

/-- The `for item in &mut self.iter` loop inside `Filter::next`: keep pulling
from the inner iterator until an element satisfies the predicate or the inner
iterator is exhausted. -/
def Filter.nextLoop [Step I β] (f : β → Bool) (it : I) : Option β × I :=
  match h : Step.next it with
  | (some item, it') => if f item then (some item, it') else Filter.nextLoop f it'
  | (none, it') => (none, it')
termination_by Step.size it
decreasing_by exact Step.size_dec it item it' h

/-- `Filter::next`. -/
def Filter.next [Step I β] (fl : Filter I β) : Option β × Filter I β :=
  match Filter.nextLoop fl.f fl.iter with
  | (r, it') => (r, ⟨it', fl.f⟩)

instance instStepFilter [Step I β] : Step (Filter I β) β where
  next := Filter.next
  size fl := Step.size fl.iter
  size_dec := by
    intro fl x fl' h
    have key : ∀ (n : Nat) (it : I), Step.size (β := β) it ≤ n → ∀ y iy,
        Filter.nextLoop fl.f it = (some y, iy) →
        Step.size (β := β) iy < Step.size (β := β) it := by
      intro n
      induction n with
      | zero =>
        intro it hle y iy hy
        rw [Filter.nextLoop] at hy
        split at hy
        · rename_i item it' heq
          split at hy
          · cases hy
            exact Step.size_dec it _ _ heq
          · exact absurd (Step.size_dec it item it' heq) (by omega)
        · exact absurd (congrArg Prod.fst hy) (by simp)
      | succ n ih =>
        intro it hle y iy hy
        rw [Filter.nextLoop] at hy
        split at hy
        · rename_i item it' heq
          split at hy
          · cases hy
            exact Step.size_dec it _ _ heq
          · have hd := Step.size_dec it item it' heq
            exact Nat.lt_trans (ih it' (by omega) y iy hy) hd
        · exact absurd (congrArg Prod.fst hy) (by simp)
    unfold Filter.next at h
    split at h
    rename_i r it' heq
    have hr : r = some x := congrArg Prod.fst h
    subst hr
    have h2 : fl' = ⟨it', fl.f⟩ := (congrArg Prod.snd h).symm
    subst h2
    exact key (Step.size fl.iter) fl.iter (Nat.le_refl _) x it' heq

/-- `MyIter::my_map`: wrap the iterator in a `Map` struct. -/
def MyIter.my_map [Step I β] (it : I) (f : β → γ) : Map I β γ := ⟨it, f⟩

/-- `MyIter::my_filter`: wrap the iterator in a `Filter` struct. -/
def MyIter.my_filter [Step I β] (it : I) (f : β → Bool) : Filter I β := ⟨it, f⟩

/-- Driving an iterator to the end and collecting the yielded elements in
order (Rust `Iterator::collect` into a `Vec`). -/
def collect [Step I β] (it : I) : List β :=
  match h : Step.next it with
  | (some x, it') => x :: collect it'
  | (none, _) => []
termination_by Step.size it
decreasing_by exact Step.size_dec it x it' h

/-- The state of an iterator after `n` calls to `next`. -/
def advance [Step I β] : Nat → I → I
  | 0, it => it
  | n + 1, it => advance n (Step.next (β := β) it).2

/-! ### iterator_patterns.rs, mod advance_collecting -/

/-- The loop of `CollectExt::collect_batched`, with the input iterator already
materialised as the list of items it yields: push each item onto the current
batch, flushing the batch whenever it reaches `batch_size`; after the loop a
non-empty leftover batch is appended.  (The Rust code accumulates flushed
batches in a `batches` vector; returning them in recursion order builds the
same list.) -/
def batchLoop (batch_size : Nat) : List α → List α → List (List α)
  | current, [] => if current.isEmpty then [] else [current]
  | current, item :: rest =>
    let cur := current ++ [item]
    if cur.length = batch_size then cur :: batchLoop batch_size [] rest
    else batchLoop batch_size cur rest

/-- `CollectExt::collect_batched` on the sequence of items of a finite
iterator. -/
def collect_batched (items : List α) (batch_size : Nat) : List (List α) :=
  batchLoop batch_size [] items

/-! ### dst_deep_dive.rs, mod smart_ptr: DebugBox -/

/-- `DebugBox<T>`: a boxed value together with the `Cell<usize>` access
counter (interior mutability is modelled by explicit state passing: every
operation returns the successor `DebugBox` state). -/
structure DebugBox (α : Type) where
  data : α
  access_count : Nat

/-- `DebugBox::new`: wrap the value, counter starts at 0. -/
def DebugBox.new (data : α) : DebugBox α := ⟨data, 0⟩

/-- `Deref::deref for DebugBox`: bump the access counter through the `Cell`
and return (a reference to) the stored data; the successor state is the
explicit result. -/
def DebugBox.deref (b : DebugBox α) : α × DebugBox α :=
  (b.data, ⟨b.data, b.access_count + 1⟩)

/-- `DebugBox::access_count`: `Cell::get` reads the counter and leaves the
state unchanged. -/
def DebugBox.access_count_call (b : DebugBox α) : Nat × DebugBox α :=
  (b.access_count, b)

/-- The state after `n` successive `deref` calls. -/
def DebugBox.derefN (b : DebugBox α) : Nat → DebugBox α
  | 0 => b
  | n + 1 => (DebugBox.derefN b n).deref.2

/-! ### iterator_patterns.rs, mod iterator_and_generator: fibonacci generator -/

/-- Rust `i32` checked addition (the arithmetic the generator's untyped
integer literals default to): `None` models the debug-build overflow panic /
absence of any further yielded value. -/
def checkedAddI32 (a b : Int) : Option Int :=
  if a + b < i32Min ∨ i32Max < a + b then none else some (a + b)

/-- One trip round the generator loop after a yield:
`let temp = a + b; a = b; b = temp;`. -/
def fibStep (st : Int × Int) : Option (Int × Int) :=
  (checkedAddI32 st.1 st.2).map (fun temp => (st.2, temp))

/-- The `(a, b)` state of the fibonacci generator just before its `(n+1)`-st
`yield b`, starting from `(0, 1)`; `none` once an addition has overflowed. -/
def fibState : Nat → Option (Int × Int)
  | 0 => some (0, 1)
  | n + 1 => (fibState n).bind fibStep

/-- The `n`-th value yielded by the fibonacci generator (1-indexed), `none` if
the generator dies of overflow before the `n`-th yield. -/
def fibYield (n : Nat) : Option Int :=
  (fibState (n - 1)).map Prod.snd

/-! ## Theorems -/

/-- Claim C2: starting from `PluginManager::new`, after any sequence of
`register` calls the processors vector is sorted in non-increasing order of
priority: `new` has the (trivially sorted) empty vector, and `register`
re-establishes sortedness on any manager state whatsoever. -/
theorem plugin_register_sorted :
    PluginManager.new.processors.Pairwise (fun a b => b.priority ≤ a.priority) ∧
    ∀ (m : PluginManager) (p : DataProcessor),
      (m.register p).processors.Pairwise (fun a b => b.priority ≤ a.priority) := by
  constructor
  · simp [PluginManager.new]
  · intro m p
    exact List.sorted_insertionSort registerOrder (m.processors ++ [p])

/-- Claim C5: `JsonProcessor::process` succeeds exactly on data that starts
with a left brace and ends with a right brace, `CsvProcessor::process`
succeeds exactly on data with strictly more than one line, their priorities
are 8 and 6, and a manager that registers both in either order holds the
`JsonProcessor` first. -/
theorem json_csv_processor_spec (data : String) :
    ((jsonProcessor.process data).isOk = true ↔
      (data.startsWith "\x7b" = true ∧ data.endsWith "\x7d" = true)) ∧
    ((csvProcessor.process data).isOk = true ↔ 1 < (rustLines data).length) ∧
    jsonProcessor.priority = 8 ∧ csvProcessor.priority = 6 ∧
    (registerAll [jsonProcessor, csvProcessor]).processors = [jsonProcessor, csvProcessor] ∧
    (registerAll [csvProcessor, jsonProcessor]).processors = [jsonProcessor, csvProcessor] := by
  have hokif : ∀ (p : Prop) (inst : Decidable p) (s1 s2 : String),
      ((if p then Except.ok (ε := String) s1 else Except.error s2).isOk = true ↔ p) := by
    intro p inst s1 s2
    split <;> rename_i hp <;> simp [Except.isOk, Except.toBool, hp]
  refine ⟨?_, ?_, rfl, rfl, rfl, rfl⟩
  · have hj : jsonProcessor.process data =
        if data.startsWith "\x7b" && data.endsWith "\x7d" then
          Except.ok ("已处理JSON数据: " ++ data)
        else Except.error "不是有效的JSON格式" := rfl
    rw [hj, hokif]
    exact iff_of_eq (Bool.and_eq_true _ _)
  · have hcsv : csvProcessor.process data =
        if (rustLines data).length > 1 then
          Except.ok ("已处理" ++ toString (rustLines data).length ++ "行CSV数据")
        else Except.error "CSV数据格式不正确" := rfl
    rw [hcsv, hokif]

/-- Claim C6: `parse_number_good` returns `ParseError::Empty` exactly on the
empty string, wraps the integer parse error in `ParseError::InvalidFormat`
exactly when the input is non-empty and the `i32` parse fails, and returns
`Ok n` exactly when the input is non-empty and parses to `n`. -/
theorem parse_number_good_spec (s : String) :
    (parse_number_good s = Except.error ParseError.Empty ↔ s = "") ∧
    (∀ e, parse_number_good s = Except.error (ParseError.InvalidFormat e) ↔
      (s ≠ "" ∧ parseI32 s = Except.error e)) ∧
    (∀ n, parse_number_good s = Except.ok n ↔ (s ≠ "" ∧ parseI32 s = Except.ok n)) := by
  by_cases hs : s = ""
  · subst hs
    have h0 : "".isEmpty = true := rfl
    refine ⟨by simp [parse_number_good, h0], fun e => ?_, fun n => ?_⟩ <;>
      simp [parse_number_good, h0]
  · have hne : s.isEmpty = false := by
      rw [Bool.eq_false_iff]
      intro h
      exact hs ((String.isEmpty_iff s).mp h)
    cases hp : parseI32 s with
    | ok n =>
      refine ⟨?_, fun e => ?_, fun n' => ?_⟩ <;>
        simp [parse_number_good, hne, hp, Except.mapError, hs, eq_comm]
    | error e =>
      refine ⟨?_, fun e' => ?_, fun n => ?_⟩ <;>
        simp [parse_number_good, hne, hp, Except.mapError, hs, eq_comm]

/-- `register` re-sorts, so folding any further registrations over a sorted
manager keeps the vector sorted. -/
theorem registerAll_sorted_aux :
    ∀ (ps : List DataProcessor) (m : PluginManager),
      m.processors.Pairwise registerOrder →
      (ps.foldl PluginManager.register m).processors.Pairwise registerOrder := by
  intro ps
  induction ps with
  | nil => exact fun m h => h
  | cons p ps ih =>
    intro m _
    exact ih (m.register p) (List.sorted_insertionSort registerOrder _)

/-- The `process_data` loop returns `Ok r` exactly when some processor at an
index `i` returns `Ok r` and every processor at an earlier index fails. -/
theorem processList_ok_iff (l : List DataProcessor) (data : String) (r : String) :
    processList l data = Except.ok r ↔
      ∃ i, (∃ p, l.get? i = some p ∧ p.process data = Except.ok r) ∧
        ∀ j, j < i → ∃ p e, l.get? j = some p ∧ p.process data = Except.error e := by
  induction l with
  | nil => simp [processList]
  | cons p ps ih =>
    cases hp : p.process data with
    | ok r0 =>
      simp only [processList, hp]
      constructor
      · intro h
        have hr : r0 = r := Except.ok.inj h
        subst hr
        refine ⟨0, ⟨p, List.get?_cons_zero, hp⟩, fun j hj => absurd hj (by omega)⟩
      · rintro ⟨i, ⟨q, hq, hqr⟩, hprev⟩
        cases i with
        | zero =>
          rw [List.get?_cons_zero] at hq
          cases hq
          rw [← hqr, hp]
        | succ i' =>
          obtain ⟨q', e, hq', hq'e⟩ := hprev 0 (by omega)
          rw [List.get?_cons_zero] at hq'
          cases hq'
          rw [hp] at hq'e
          exact absurd hq'e (by simp)
    | error e0 =>
      simp only [processList, hp]
      rw [ih]
      constructor
      · rintro ⟨i, hi, hprev⟩
        refine ⟨i + 1, by simpa [List.get?_cons_succ] using hi, fun j hj => ?_⟩
        cases j with
        | zero => exact ⟨p, e0, List.get?_cons_zero, hp⟩
        | succ j' =>
          have := hprev j' (by omega)
          simpa [List.get?_cons_succ] using this
      · rintro ⟨i, hi, hprev⟩
        cases i with
        | zero =>
          obtain ⟨q, hq, hqr⟩ := hi
          rw [List.get?_cons_zero] at hq
          cases hq
          rw [hp] at hqr
          exact absurd hqr (by simp)
        | succ i' =>
          refine ⟨i', by simpa [List.get?_cons_succ] using hi, fun j hj => ?_⟩
          have := hprev (j + 1) (by omega)
          simpa [List.get?_cons_succ] using this

/-- If every registered processor fails, the `process_data` loop falls
through to the fixed error message. -/
theorem processList_all_error (data : String) :
    ∀ (l : List DataProcessor),
      (∀ p ∈ l, ∃ e, p.process data = Except.error e) →
      processList l data = Except.error "所有处理器都无法处理该数据" := by
  intro l
  induction l with
  | nil => exact fun _ => rfl
  | cons p ps ih =>
    intro h
    obtain ⟨e, he⟩ := h p (by simp)
    simp only [processList, he]
    exact ih (fun q hq => h q (by simp [hq]))

/-- Claim C1: for a manager built by any sequence of registrations,
`process_data` consults the processors in non-increasing priority order (the
vector is sorted that way) and returns the `Ok` of the first processor that
succeeds; when all registered processors fail (in particular when none is
registered) it returns the fixed error. -/
theorem plugin_process_data_spec (ps : List DataProcessor) (data : String) :
    ((registerAll ps).processors).Pairwise (fun a b => b.priority ≤ a.priority) ∧
    (∀ r, (registerAll ps).process_data data = Except.ok r ↔
      ∃ i, (∃ p, ((registerAll ps).processors).get? i = some p ∧
              p.process data = Except.ok r) ∧
        ∀ j, j < i → ∃ p e, ((registerAll ps).processors).get? j = some p ∧
              p.process data = Except.error e) ∧
    ((∀ p ∈ (registerAll ps).processors, ∃ e, p.process data = Except.error e) →
      (registerAll ps).process_data data = Except.error "所有处理器都无法处理该数据") := by
  refine ⟨?_, ?_, ?_⟩
  · exact registerAll_sorted_aux ps PluginManager.new (by simp [PluginManager.new])
  · exact fun r => processList_ok_iff (registerAll ps).processors data r
  · exact processList_all_error data (registerAll ps).processors

/-- Witness for claim C1: the empty manager (vacuously, all of its processors
fail) returns the fixed error on any input. -/
theorem plugin_process_data_spec_witness :
    (∀ p ∈ (registerAll []).processors, ∃ e, p.process "x" = Except.error e) ∧
    (registerAll []).process_data "x" = Except.error "所有处理器都无法处理该数据" := by
  have hall : ∀ p ∈ (registerAll []).processors, ∃ e, p.process "x" = Except.error e := by
    intro p hp
    simp [registerAll, PluginManager.new] at hp
  exact ⟨hall, (plugin_process_data_spec [] "x").2.2 hall⟩

/-- Unfolding of the `Step` instance of `Iter`. -/
theorem iter_next_eq (s : List α) (idx : Nat) :
    Step.next (β := α) (Iter.mk s idx) =
      if idx = s.length then (none, Iter.mk s idx)
      else (s.get? idx, Iter.mk s (idx + 1)) := rfl

/-- Advancing a slice iterator with cursor within bounds moves the cursor,
saturating at the slice length. -/
theorem advance_iter (s : List α) :
    ∀ (n idx : Nat), idx ≤ s.length →
      advance n (Iter.mk s idx) = Iter.mk s (min (idx + n) s.length) := by
  intro n
  induction n with
  | zero =>
    intro idx h
    simp only [advance, Nat.add_zero]
    rw [Nat.min_eq_left h]
  | succ k ih =>
    intro idx h
    simp only [advance]
    rw [iter_next_eq]
    by_cases he : idx = s.length
    · rw [if_pos he]
      subst he
      rw [ih s.length (Nat.le_refl _)]
      simp only [Iter.mk.injEq, true_and]
      omega
    · rw [if_neg he]
      rw [ih (idx + 1) (by omega)]
      simp only [Iter.mk.injEq, true_and]
      omega

/-- A slice iterator whose cursor is past the end yields nothing. -/
theorem collect_iter_ge (s : List α) (idx : Nat) (h : s.length ≤ idx) :
    collect (Iter.mk s idx) = [] := by
  rw [collect]
  split
  · rename_i x it' heq
    rw [iter_next_eq] at heq
    split at heq
    · exact absurd (congrArg Prod.fst heq) (by simp)
    · have hx : s.get? idx = some x := congrArg Prod.fst heq
      rw [List.get?_eq_none.mpr h] at hx
      exact absurd hx (by simp)
  · rfl

/-- Collecting a slice iterator yields exactly the suffix of the slice from
the cursor on. -/
theorem collect_iter (s : List α) :
    ∀ (k idx : Nat), s.length - idx ≤ k → collect (Iter.mk s idx) = s.drop idx := by
  intro k
  induction k with
  | zero =>
    intro idx h
    rw [collect_iter_ge s idx (by omega), List.drop_eq_nil_of_le (by omega)]
  | succ k ih =>
    intro idx h
    by_cases hge : s.length ≤ idx
    · rw [collect_iter_ge s idx hge, List.drop_eq_nil_of_le hge]
    · have hlt : idx < s.length := by omega
      rw [collect]
      split
      · rename_i x it' heq
        rw [iter_next_eq, if_neg (by omega)] at heq
        have hx : s.get? idx = some x := congrArg Prod.fst heq
        have hit : it' = Iter.mk s (idx + 1) := (congrArg Prod.snd heq).symm
        subst hit
        rw [ih (idx + 1) (by omega)]
        rw [List.get?_eq_get hlt] at hx
        have hx2 : x = s.get ⟨idx, hlt⟩ := by
          injection hx with hx
          exact hx.symm
        subst hx2
        exact (List.drop_eq_get_cons hlt).symm
      · rename_i it' heq
        rw [iter_next_eq, if_neg (by omega)] at heq
        have hx : s.get? idx = none := congrArg Prod.fst heq
        rw [List.get?_eq_get hlt] at hx
        exact absurd hx (by simp)

/-- Claim C3: the custom slice iterator yields exactly the elements of the
slice in order: after `n` `next` calls the next call returns `slice.get(n)`
(so `Some` of the `n`-th element while `n < len`, and `None` from then on),
and collecting from the start returns the whole slice. -/
theorem iter_yields_slice (α : Type) (s : List α) (n : Nat) :
    (Step.next (β := α) (advance n (Iter.fromSlice s))).1 = s.get? n ∧
    collect (Iter.fromSlice s) = s := by
  constructor
  · rw [show Iter.fromSlice s = Iter.mk s 0 from rfl,
      advance_iter s n 0 (by omega), iter_next_eq]
    by_cases hn : n < s.length
    · rw [if_neg (by omega)]
      simp only
      rw [Nat.zero_add, Nat.min_eq_left (Nat.le_of_lt hn)]
    · rw [if_pos (by omega)]
      simp only
      rw [List.get?_eq_none.mpr (by omega)]
  · rw [show Iter.fromSlice s = Iter.mk s 0 from rfl,
      collect_iter s s.length 0 (by omega), List.drop_zero]

/-- Claim C9: every `Iter` state reachable from `Iter::from` by `next` calls
keeps its cursor within the slice length (so the `len - idx` subtraction in
`size_hint` cannot underflow), and `size_hint` returns exactly `(r, Some r)`
where `r` is the number of elements the iterator will still yield. -/
theorem iter_size_hint_exact (α : Type) (s : List α) (n : Nat) :
    (advance n (Iter.fromSlice s)).idx ≤ (advance n (Iter.fromSlice s)).slice.length ∧
    Iter.size_hint (advance n (Iter.fromSlice s)) =
      ((collect (advance n (Iter.fromSlice s))).length,
        some ((collect (advance n (Iter.fromSlice s))).length)) := by
  have ha : advance n (Iter.fromSlice s) = Iter.mk s (min (0 + n) s.length) :=
    advance_iter s n 0 (by omega)
  rw [ha]
  constructor
  · simp only
    omega
  · rw [collect_iter s s.length _ (by omega), Iter.size_hint]
    simp only [List.length_drop]

/-- `collect` unfolding when `next` yields an element. -/
theorem collect_eq_cons [Step I β] (it it' : I) (x : β)
    (h : Step.next it = (some x, it')) : collect it = x :: collect it' := by
  rw [collect]
  split
  · rename_i y iy heq
    rw [h] at heq
    cases heq
    rfl
  · rename_i iy heq
    rw [h] at heq
    exact absurd (congrArg Prod.fst heq) (by simp)

/-- `collect` unfolding when `next` yields nothing. -/
theorem collect_eq_nil [Step I β] (it it' : I) (h : Step.next it = (none, it')) :
    collect it = [] := by
  rw [collect]
  split
  · rename_i y iy heq
    rw [h] at heq
    exact absurd (congrArg Prod.fst heq) (by simp)
  · rfl

/-- `Map::next` on an inner iterator that yields an element. -/
theorem map_next_some [Step I β] (f : β → γ) (it it' : I) (x : β)
    (h : Step.next it = (some x, it')) :
    Step.next (Map.mk it f) = (some (f x), Map.mk it' f) := by
  show Map.next (Map.mk it f) = _
  simp [Map.next, h]

/-- `Map::next` on an exhausted inner iterator. -/
theorem map_next_none [Step I β] (f : β → γ) (it it' : I)
    (h : Step.next it = (none, it')) :
    Step.next (Map.mk it f) = (none, Map.mk it' f) := by
  show Map.next (Map.mk it f) = _
  simp [Map.next, h]

/-- Collecting through the `Map` adapter maps the closure over the collected
inner elements. -/
theorem collect_map [Step I β] (f : β → γ) :
    ∀ (k : Nat) (it : I), Step.size (β := β) it ≤ k →
      collect (Map.mk it f) = (collect it).map f := by
  intro k
  induction k with
  | zero =>
    intro it hk
    rcases hin : Step.next (β := β) it with ⟨_ | x, it'⟩
    · rw [collect_eq_nil _ _ (map_next_none f it it' hin), collect_eq_nil it it' hin]
      rfl
    · exact absurd (Step.size_dec it x it' hin) (by omega)
  | succ k ih =>
    intro it hk
    rcases hin : Step.next (β := β) it with ⟨_ | x, it'⟩
    · rw [collect_eq_nil _ _ (map_next_none f it it' hin), collect_eq_nil it it' hin]
      rfl
    · rw [collect_eq_cons _ _ _ (map_next_some f it it' x hin),
        collect_eq_cons it it' x hin, List.map_cons]
      have hd := Step.size_dec it x it' hin
      rw [ih it' (by omega)]

/-- The `Filter::next` inner loop, related to collecting the inner iterator:
an exhausted loop means no remaining inner element passes the predicate, and
a successful loop returns the first passing element. -/
theorem nextLoop_collect [Step I β] (p : β → Bool) :
    ∀ (k : Nat) (it : I), Step.size (β := β) it ≤ k →
      (∀ it₂, Filter.nextLoop p it = (none, it₂) → (collect it).filter p = []) ∧
      (∀ x it₂, Filter.nextLoop p it = (some x, it₂) →
        (collect it).filter p = x :: (collect it₂).filter p) := by
  intro k
  induction k with
  | zero =>
    intro it hk
    constructor
    · intro it₂ h
      rcases hin : Step.next (β := β) it with ⟨_ | x, it'⟩
      · rw [collect_eq_nil it it' hin]
        rfl
      · exact absurd (Step.size_dec it x it' hin) (by omega)
    · intro x it₂ h
      rcases hin : Step.next (β := β) it with ⟨_ | y, it'⟩
      · rw [Filter.nextLoop] at h
        split at h
        · rename_i item it3 heq
          rw [hin] at heq
          exact absurd (congrArg Prod.fst heq) (by simp)
        · exact absurd (congrArg Prod.fst h) (by simp)
      · exact absurd (Step.size_dec it y it' hin) (by omega)
  | succ k ih =>
    intro it hk
    constructor
    · intro it₂ h
      rcases hin : Step.next (β := β) it with ⟨_ | y, it'⟩
      · rw [collect_eq_nil it it' hin]
        rfl
      · rw [Filter.nextLoop] at h
        split at h
        · rename_i item it3 heq
          rw [hin] at heq
          cases heq
          split at h
          · exact absurd (congrArg Prod.fst h) (by simp)
          · rename_i hp
            have hd := Step.size_dec it y it' hin
            have hrest := (ih it' (by omega)).1 it₂ h
            rw [collect_eq_cons it it' y hin, List.filter_cons]
            simp [hp, hrest]
        · rename_i it3 heq
          rw [hin] at heq
          exact absurd (congrArg Prod.fst heq) (by simp)
    · intro x it₂ h
      rcases hin : Step.next (β := β) it with ⟨_ | y, it'⟩
      · rw [Filter.nextLoop] at h
        split at h
        · rename_i item it3 heq
          rw [hin] at heq
          exact absurd (congrArg Prod.fst heq) (by simp)
        · exact absurd (congrArg Prod.fst h) (by simp)
      · rw [Filter.nextLoop] at h
        split at h
        · rename_i item it3 heq
          rw [hin] at heq
          cases heq
          split at h
          · rename_i hp
            cases h
            rw [collect_eq_cons it it₂ x hin, List.filter_cons]
            simp [hp]
          · rename_i hp
            have hd := Step.size_dec it y it' hin
            have hrest := (ih it' (by omega)).2 x it₂ h
            rw [collect_eq_cons it it' y hin, List.filter_cons]
            simp [hp, hrest]
        · rename_i it3 heq
          rw [hin] at heq
          exact absurd (congrArg Prod.fst heq) (by simp)

/-- Collecting through the `Filter` adapter filters the collected inner
elements by the predicate. -/
theorem collect_filter [Step I β] (p : β → Bool) :
    ∀ (k : Nat) (it : I), Step.size (β := β) it ≤ k →
      collect (Filter.mk it p) = (collect it).filter p := by
  intro k
  induction k with
  | zero =>
    intro it hk
    rcases hl : Filter.nextLoop p it with ⟨r, it₂⟩
    have hnext : Step.next (Filter.mk it p) = (r, Filter.mk it₂ p) := by
      show Filter.next (Filter.mk it p) = _
      simp [Filter.next, hl]
    cases r with
    | none =>
      rw [collect_eq_nil _ _ hnext]
      exact ((nextLoop_collect p (Step.size (β := β) it) it (Nat.le_refl _)).1 it₂ hl).symm
    | some x =>
      have hd := Step.size_dec (Filter.mk it p) x (Filter.mk it₂ p) hnext
      exact absurd hd (by simp [instStepFilter]; omega)
  | succ k ih =>
    intro it hk
    rcases hl : Filter.nextLoop p it with ⟨r, it₂⟩
    have hnext : Step.next (Filter.mk it p) = (r, Filter.mk it₂ p) := by
      show Filter.next (Filter.mk it p) = _
      simp [Filter.next, hl]
    cases r with
    | none =>
      rw [collect_eq_nil _ _ hnext]
      exact ((nextLoop_collect p (Step.size (β := β) it) it (Nat.le_refl _)).1 it₂ hl).symm
    | some x =>
      rw [collect_eq_cons _ _ _ hnext]
      have hsome := (nextLoop_collect p (Step.size (β := β) it) it (Nat.le_refl _)).2 x it₂ hl
      rw [hsome]
      have hd : Step.size (β := β) it₂ < Step.size (β := β) it :=
        Step.size_dec (Filter.mk it p) x (Filter.mk it₂ p) hnext
      rw [ih it₂ (by omega)]

/-- Claim C4: collecting `Iter::from(s).my_map(f).my_filter(p)` produces the
same list as the reference computation: map `f` over the slice, then keep
exactly the elements satisfying `p`, in order. -/
theorem map_filter_chain_spec (α γ : Type) (s : List α) (f : α → γ) (p : γ → Bool) :
    collect (MyIter.my_filter (MyIter.my_map (Iter.fromSlice s) f) p) =
      (s.map f).filter p := by
  show collect (Filter.mk (Map.mk (Iter.fromSlice s) f) p) = _
  rw [collect_filter p (Step.size (β := γ) (Map.mk (Iter.fromSlice s) f)) _ (Nat.le_refl _)]
  rw [collect_map f (Step.size (β := α) (Iter.fromSlice s)) _ (Nat.le_refl _)]
  rw [show Iter.fromSlice s = Iter.mk s 0 from rfl,
    collect_iter s s.length 0 (by omega), List.drop_zero]

/-- Claim C8: starting from `DebugBox::new`, after `n` `deref` calls the
stored data is unchanged and the access count is exactly `n`; one further
`deref` returns the stored value, leaves the data unchanged and bumps the
count to `n + 1`; and `access_count()` returns the count without changing the
state. -/
theorem debug_box_deref_spec (α : Type) (x : α) (n : Nat) :
    (DebugBox.derefN (DebugBox.new x) n).data = x ∧
    (DebugBox.derefN (DebugBox.new x) n).access_count = n ∧
    (DebugBox.deref (DebugBox.derefN (DebugBox.new x) n)).1 = x ∧
    (DebugBox.deref (DebugBox.derefN (DebugBox.new x) n)).2.data = x ∧
    (DebugBox.deref (DebugBox.derefN (DebugBox.new x) n)).2.access_count = n + 1 ∧
    DebugBox.access_count_call (DebugBox.derefN (DebugBox.new x) n) =
      (n, DebugBox.derefN (DebugBox.new x) n) := by
  have key : ∀ m, (DebugBox.derefN (DebugBox.new x) m).data = x ∧
      (DebugBox.derefN (DebugBox.new x) m).access_count = m := by
    intro m
    induction m with
    | zero => exact ⟨rfl, rfl⟩
    | succ k ih => simp [DebugBox.derefN, DebugBox.deref, ih.1, ih.2]
  obtain ⟨h1, h2⟩ := key n
  refine ⟨h1, h2, ?_, ?_, ?_, ?_⟩ <;>
    simp [DebugBox.deref, DebugBox.access_count_call, h1, h2]

/-- A member of `dropLast` of a cons is the head or a member of `dropLast` of
the tail. -/
theorem mem_dropLast_cons (a : List α) (L : List (List α)) (b : List α)
    (hb : b ∈ (a :: L).dropLast) : b = a ∨ b ∈ L.dropLast := by
  cases L with
  | nil => simp [List.dropLast_single] at hb
  | cons c L' =>
    rw [List.dropLast_cons₂] at hb
    rcases List.mem_cons.mp hb with hb | hb
    · exact Or.inl hb
    · exact Or.inr hb

/-- Concatenating the batches of the `collect_batched` loop restores the
pending batch followed by the remaining items. -/
theorem batchLoop_join (k : Nat) (hk : 1 ≤ k) :
    ∀ (items current : List α), current.length < k →
      (batchLoop k current items).join = current ++ items := by
  intro items
  induction items with
  | nil =>
    intro current _
    simp only [batchLoop]
    split
    · rename_i he
      rw [List.isEmpty_iff.mp he]
      rfl
    · simp
  | cons item rest ih =>
    intro current hc
    simp only [batchLoop]
    split
    · have hcons : ((current ++ [item]) :: batchLoop k [] rest).join =
          (current ++ [item]) ++ (batchLoop k [] rest).join := rfl
      rw [hcons, ih [] (by simp only [List.length_nil]; omega)]
      simp
    · rename_i hlen
      rw [ih (current ++ [item]) (by simp at hlen ⊢; omega)]
      simp

/-- In the `collect_batched` loop every flushed batch has exactly the batch
size, every batch is non-empty and no batch exceeds the batch size. -/
theorem batchLoop_sizes (k : Nat) (hk : 1 ≤ k) :
    ∀ (items current : List α), current.length < k →
      (∀ b ∈ (batchLoop k current items).dropLast, b.length = k) ∧
      (∀ b ∈ batchLoop k current items, b ≠ [] ∧ b.length ≤ k) := by
  intro items
  induction items with
  | nil =>
    intro current hc
    simp only [batchLoop]
    split
    · exact ⟨by simp, by simp⟩
    · rename_i he
      refine ⟨by simp [List.dropLast_single], fun b hb => ?_⟩
      rw [List.mem_singleton] at hb
      subst hb
      refine ⟨fun hnil => ?_, by omega⟩
      rw [hnil] at he
      simp at he
  | cons item rest ih =>
    intro current hc
    simp only [batchLoop]
    split
    · rename_i hlen
      obtain ⟨ih1, ih2⟩ := ih [] (by simp only [List.length_nil]; omega)
      constructor
      · intro b hb
        rcases mem_dropLast_cons _ _ b hb with hb | hb
        · rw [hb, hlen]
        · exact ih1 b hb
      · intro b hb
        rcases List.mem_cons.mp hb with hb | hb
        · subst hb
          refine ⟨fun hnil => ?_, by omega⟩
          have : (current ++ [item]).length = 0 := by rw [hnil]; rfl
          simp at this
        · exact ih2 b hb
    · rename_i hlen
      exact ih (current ++ [item]) (by simp at hlen ⊢; omega)

/-- Claim C10: for every finite iterator (given by the list of items it
yields) and every batch size of at least 1, `collect_batched` returns batches
whose concatenation is exactly the input sequence, in which every batch except
possibly the last has exactly `batch_size` elements, and no batch is empty
(nor longer than `batch_size`). -/
theorem collect_batched_spec (α : Type) (items : List α) (batch_size : Nat)
    (h : 1 ≤ batch_size) :
    (collect_batched items batch_size).join = items ∧
    (∀ b ∈ (collect_batched items batch_size).dropLast, b.length = batch_size) ∧
    (∀ b ∈ collect_batched items batch_size, b ≠ [] ∧ b.length ≤ batch_size) := by
  have h1 := batchLoop_join batch_size h items [] (by simp only [List.length_nil]; omega)
  have h2 := batchLoop_sizes batch_size h items [] (by simp only [List.length_nil]; omega)
  exact ⟨by simpa using h1, h2.1, h2.2⟩

/-- Witness for claim C10 at `items = [1, 2, 3]`, `batch_size = 2`. -/
theorem collect_batched_spec_witness :
    1 ≤ 2 ∧ ((collect_batched [1, 2, 3] 2).join = [1, 2, 3] ∧
      (∀ b ∈ (collect_batched [1, 2, 3] 2).dropLast, b.length = 2) ∧
      (∀ b ∈ collect_batched [1, 2, 3] 2, b ≠ [] ∧ b.length ≤ 2)) :=
  ⟨by decide, collect_batched_spec Nat [1, 2, 3] 2 (by decide)⟩

/-- The generator state before the `(n+1)`-st yield holds the `n`-th and
`(n+1)`-st Fibonacci numbers, as long as the additions performed so far stay
within `i32` range (which they do up to the 45th step, since
`Fib 46 = 1836311903` fits in an `i32`). -/
theorem fibState_eq : ∀ n, n ≤ 45 →
    fibState n = some ((Nat.fib n : Int), (Nat.fib (n + 1) : Int)) := by
  intro n
  induction n with
  | zero =>
    intro _
    simp [fibState]
  | succ k ih =>
    intro hn
    have hstep : fibState (k + 1) = (fibState k).bind fibStep := rfl
    rw [hstep, ih (by omega)]
    simp only [Option.some_bind, fibStep, checkedAddI32]
    have hsum : (Nat.fib k : Int) + (Nat.fib (k + 1) : Int) = (Nat.fib (k + 2) : Int) := by
      rw [← Nat.cast_add]
      exact congrArg _ (Nat.fib_add_two).symm
    have h46 : Nat.fib (k + 2) ≤ Nat.fib 46 := Nat.fib_mono (by omega)
    have hv : Nat.fib 46 = 1836311903 := by decide
    have hle : (Nat.fib (k + 2) : Int) ≤ 1836311903 := by exact_mod_cast hv ▸ h46
    have hnonneg : (0 : Int) ≤ (Nat.fib k : Int) + (Nat.fib (k + 1) : Int) := by positivity
    rw [if_neg (by rw [hsum]; rw [i32Min, i32Max]; push_neg; omega)]
    simp only [Option.map_some']
    rw [hsum]

/-- Counterexample to claim C7 as stated: the 47th value yielded by the
generator is not `Fib 47`: computing `Fib 47 = 2971215073` overflows `i32`
(maximum 2147483647), so no 47th value is yielded at all. -/
theorem fib_generator_counterexample : fibYield 47 ≠ some ((Nat.fib 47 : Int)) := by
  decide

/-- Claim C7 as amended: the generator yields `Fib n` for the `n`-th yield for
every `1 ≤ n ≤ 46`; the 47th yield does not happen (the `a + b` addition
overflows `i32`); in particular taking the first 32 values collects exactly
`Fib 1` through `Fib 32`. -/
theorem fib_generator_yields_upto_46 :
    (∀ n, 1 ≤ n → n ≤ 46 → fibYield n = some ((Nat.fib n : Int))) ∧
    fibYield 47 = none ∧
    (List.range 32).map (fun j => fibYield (j + 1)) =
      (List.range 32).map (fun j => some ((Nat.fib (j + 1) : Int))) := by
  have hy : ∀ n, 1 ≤ n → n ≤ 46 → fibYield n = some ((Nat.fib n : Int)) := by
    intro n h1 h2
    rw [fibYield, fibState_eq (n - 1) (by omega)]
    simp only [Option.map_some']
    rw [Nat.sub_add_cancel h1]
  refine ⟨hy, by decide, ?_⟩
  apply List.map_congr_left
  intro j hj
  rw [List.mem_range] at hj
  exact hy (j + 1) (by omega) (by omega)

/-- Witness for the amended claim C7 at `n = 32`: the 32nd yielded value is
`Fib 32`. -/
theorem fib_generator_yields_witness :
    1 ≤ 32 ∧ 32 ≤ 46 ∧ fibYield 32 = some ((Nat.fib 32 : Int)) :=
  ⟨by decide, by decide, (fib_generator_yields_upto_46).1 32 (by decide) (by decide)⟩

end Sniffing
